import Mathlib

/-!
Verification of Debian/mergebot against its specification.

The Go sources are shallowly embedded: file contents and lines are `List Char`,
pure helpers become Lean functions, and the effectful parts (file writes,
renames, child-process handling) become explicit traces or oracle-indexed
state transformers.  All definitions follow the source files
`filter_changelog.go`, `loggedexec/loggedexec.go` and `getpatch.go`.
-/

set_option autoImplicit false

namespace Mergebot

/-- Boolean test that `p` is an initial segment of `l`
(embeds Go `strings.HasPrefix` on byte strings viewed as char lists). -/
def pre : List Char → List Char → Bool
  | [], _ => true
  | _ :: _, [] => false
  | a :: p, b :: l => a == b && pre p l

/-- The marker `"  [ "` that introduces a contributor section header. -/
def hdrPre : List Char := [' ', ' ', '[', ' ']

/-- The marker `"  * "` that introduces a changelog bullet entry. -/
def bulPre : List Char := [' ', ' ', '*', ' ']

/-- The marker `" -- "` that introduces the attribution line. -/
def attrPre : List Char := [' ', '-', '-', ' ']

/-- The loop state of `filterChangelog` in `filter_changelog.go`:
`lastSection`, `copyOnly`, `lastLineEmpty`. -/
structure FCState where
  lastSection : List Char
  copyOnly : Bool
  lastLineEmpty : Bool
deriving Repr, DecidableEq

/-- Initial state of the `filterChangelog` loop. -/
def FCState.init : FCState := ⟨[], false, false⟩

/-- One iteration of the scanner loop of `filterChangelog`
(`filter_changelog.go` lines 31-55): returns the new state and the lines
written to the output file by this iteration. -/
def fcStep (s : FCState) (l : List Char) : FCState × List (List Char) :=
  if s.copyOnly then (s, [l])
  else if pre hdrPre l then ({ s with lastSection := l }, [])
  else
    let out1 := if pre bulPre l then [s.lastSection] else []
    let out2 := if s.lastLineEmpty && l.isEmpty then [] else [l]
    (⟨s.lastSection, pre attrPre l, l.isEmpty⟩, out1 ++ out2)

/-- Runs the `filterChangelog` loop over a list of input lines. -/
def fcRun (s : FCState) : List (List Char) → FCState × List (List Char)
  | [] => (s, [])
  | l :: ls =>
    let p := fcStep s l
    let q := fcRun p.1 ls
    (q.1, p.2 ++ q.2)

/-- The line-level transform performed by `filterChangelog`. -/
def filterLines (ls : List (List Char)) : List (List Char) :=
  (fcRun FCState.init ls).2

/-- Whether a char list ends with a carriage return
(the condition tested by `dropCR` inside Go's `bufio.ScanLines`). -/
def endsCR : List Char → Bool
  | [] => false
  | [c] => c == '\r'
  | _ :: c :: r => endsCR (c :: r)

/-- Go `bufio`'s `dropCR`: strips one trailing `'\r'`. -/
def dropCR (l : List Char) : List Char :=
  if endsCR l then l.dropLast else l

/-- Splits a char list at every `'\n'`, keeping empty pieces
(always returns at least one piece). -/
def splitNL : List Char → List (List Char)
  | [] => [[]]
  | c :: r =>
    if c = '\n' then [] :: splitNL r
    else
      match splitNL r with
      | [] => [[c]]
      | p :: ps => (c :: p) :: ps

/-- The token sequence produced by `bufio.NewScanner` with the default
`ScanLines` split function on the given content: one token per newline,
a final token for a non-terminated last line, `'\r'` stripped before `'\n'`
and at end of input. -/
def scanLines (content : List Char) : List (List Char) :=
  let ps := splitNL content
  (if ps.getLast? = some ([] : List Char) then ps.dropLast else ps).map dropCR

/-- `fmt.Fprintln` writes each line followed by `'\n'`; this is the content
of the output file built from the filtered lines. -/
def unlines (ls : List (List Char)) : List Char :=
  ls.foldr (fun l acc => l ++ '\n' :: acc) []

/-- The content transform implemented by `filterChangelog` on the happy path:
scan the input into lines, filter them, write each with a trailing newline. -/
def filterChangelog (content : List Char) : List Char :=
  unlines (filterLines (scanLines content))

/-- No `'\n'` occurs in the char list. -/
def noNL : List Char → Bool
  | [] => true
  | c :: r => !(c == '\n') && noNL r

/-- In the given lines, no `"  * "` bullet line occurs before the first
`"  [ "` section header or `" -- "` attribution line. -/
def noEarly : List (List Char) → Bool
  | [] => true
  | l :: ls =>
    if pre hdrPre l || pre attrPre l then true
    else if pre bulPre l then false
    else noEarly ls

/-- Simulation invariant for re-filtering: relates the state `s` of a first
`filterChangelog` pass (about to process the remaining input `ls`) with the
state `t` of a second pass that has consumed exactly the output the first
pass produced so far. -/
def SimInv (s t : FCState) (ls : List (List Char)) : Prop :=
  s.copyOnly = t.copyOnly ∧
  (s.copyOnly = false →
    s.lastLineEmpty = t.lastLineEmpty ∧
    (pre hdrPre s.lastSection = true ∨ s.lastSection = t.lastSection) ∧
    (pre hdrPre s.lastSection = true ∨ noEarly ls = true))

/-! ### The atomic in-place rewrite performed by `filterChangelog`

`filterChangelog` writes into a fresh temporary file and renames it over the
target only after scanning and closing succeed (`filter_changelog.go`
lines 13-24 and 56-63); the deferred `os.Remove` cleans the temporary file up
on every other path.  The file system is a map from paths to contents, and an
outcome record says which of the fallible operations succeed. -/

/-- A file system: partial map from paths to file contents. -/
def FS : Type := List Char → Option (List Char)

/-- Point update of a file system (`none` models absence/removal). -/
def fsUpd (fs : FS) (p : List Char) (v : Option (List Char)) : FS :=
  fun q => if q = p then v else fs q

/-- Which fallible operations of one `filterChangelog` call succeed. -/
structure FcOutcome where
  tempOk : Bool
  openOk : Bool
  scanOk : Bool
  closeOk : Bool
  renameOk : Bool

/-- The file-system effect of one `filterChangelog(path)` call, following
`filter_changelog.go` line by line: create the temporary file, open the
input, scan/filter, close the output, rename it over `path`; the deferred
`os.Remove(output.Name())` runs on every path (it is a no-op after a
successful rename). -/
def filterChangelogRun (fs : FS) (path tmp : List Char) (o : FcOutcome) :
    FS × Bool :=
  if !o.tempOk then (fs, true)
  else
    let fs1 := fsUpd fs tmp (some [])
    match fs1 path with
    | none => (fsUpd fs1 tmp none, true)
    | some content =>
      if !o.openOk then (fsUpd fs1 tmp none, true)
      else if !o.scanOk then (fsUpd fs1 tmp none, true)
      else
        let fs2 := fsUpd fs1 tmp (some (filterChangelog content))
        if !o.closeOk then (fsUpd fs2 tmp none, true)
        else if !o.renameOk then (fsUpd fs2 tmp none, true)
        else (fsUpd (fsUpd fs2 path (some (filterChangelog content))) tmp none, false)

/-! ### `loggedexec`: log-file naming, invocation logs, error messages -/

/-- `quoteStrings` in `loggedexec.go` wraps a string in double quotes
(the literal `"` + val + `"`). -/
def quoteS (l : List Char) : List Char := '"' :: (l ++ ['"'])

/-- `strings.Join` with the given separator. -/
def joinSep (sep : List Char) : List (List Char) → List Char
  | [] => []
  | [l] => l
  | l :: l' :: ls => l ++ sep ++ joinSep sep (l' :: ls)

/-- `fmt.Sprintf("%03d-", n)` without the trailing dash: the sequence index
zero-padded to width three. -/
def pad3 (n : Nat) : List Char :=
  (if n < 10 then "00" else if n < 100 then "0" else "").toList ++ (Nat.repr n).toList

/-- `filepath.Join` for a clean directory and a relative name
(shallow model: separator insertion). -/
def joinPath (dir name : List Char) : List Char := dir ++ '/' :: name

/-- The `logPrefix` computed in `Run` (`loggedexec.go` line 109):
`filepath.Join(l.LogDir, fmt.Sprintf(l.LogFmt, cmdCount)+l.Args[0])` with the
default `LogFmt` of `"%03d-"`.  Note that `l.Args[0]` goes in verbatim. -/
def logPrefixFor (logDir : List Char) (idx : Nat) (arg0 : List Char) : List Char :=
  joinPath logDir (pad3 idx ++ '-' :: arg0)

/-- The invocation log path (`loggedexec.go` line 112). -/
def invocationLogPathFor (logDir : List Char) (idx : Nat) (arg0 : List Char) : List Char :=
  logPrefixFor logDir idx arg0 ++ ".invocation.log".toList

/-- The stdout/stderr log path (`loggedexec.go` line 113). -/
def stdouterrLogPathFor (logDir : List Char) (idx : Nat) (arg0 : List Char) : List Char :=
  logPrefixFor logDir idx arg0 ++ ".stdoutstderr.log".toList

/-- The path component after the last slash. -/
def baseName (l : List Char) : List Char :=
  l.foldl (fun acc c => if c = '/' then [] else acc ++ [c]) []

/-- Modelled from the spec: "Log file naming: deterministic from {log
directory, zero-padded sequence index, program base name, log kind}": the
invocation log name built from the program's *base name*. -/
def specInvocationLogPathFor (logDir : List Char) (idx : Nat) (arg0 : List Char) : List Char :=
  joinPath logDir (pad3 idx ++ '-' :: baseName arg0) ++ ".invocation.log".toList

/-- Modelled from the spec: the stdout/stderr log name built from the
program's *base name*. -/
def specStdouterrLogPathFor (logDir : List Char) (idx : Nat) (arg0 : List Char) : List Char :=
  joinPath logDir (pad3 idx ++ '-' :: baseName arg0) ++ ".stdoutstderr.log".toList

/-- `capturingWriter` of `loggedexec.go`: keeps appending written chunks
until a chunk containing a newline has been seen. -/
structure CapturingWriter where
  data : List Char
  newlineSeen : Bool
deriving Repr, DecidableEq

/-- The zero `capturingWriter`. -/
def cwInit : CapturingWriter := ⟨[], false⟩

/-- `capturingWriter.Write`: append only while no newline has been seen;
afterwards record whether this chunk contained one
(`bytes.LastIndexByte(p, '\n') != -1`). -/
def cwWrite (c : CapturingWriter) (p : List Char) : CapturingWriter :=
  if c.newlineSeen then c else ⟨c.data ++ p, p.contains '\n'⟩

/-- `capturingWriter.FirstLine`: the captured data up to (and excluding) the
first `'\n'`; all of it if no newline occurs. -/
def firstLine (c : CapturingWriter) : List Char :=
  c.data.takeWhile (fun ch => !(ch == '\n'))

/-- Modelled from the spec: "The first line (text up to and including the
first newline byte) of that merged stream" — the first line *including* the
terminating newline byte. -/
def specFirstLine : List Char → List Char
  | [] => []
  | c :: r => if c = '\n' then ['\n'] else c :: specFirstLine r

/-- The error message built by `Run` on failure (`loggedexec.go`
lines 178-186), with `%q` verbs modelled as plain double-quoting. -/
def errorMessage (commandline runErrStr invPath logPath firstL : List Char) : List Char :=
  "Running ".toList ++ quoteS commandline ++ ": ".toList ++ runErrStr ++ "\n".toList ++
  "See ".toList ++ quoteS invPath ++ " for invocation details.\n".toList ++
  "See ".toList ++ quoteS logPath ++ " for full stdout/stderr.\n".toList ++
  "First stdout/stderr line: ".toList ++ quoteS firstL ++ "\n".toList

/-- Substring test: does `pat` occur contiguously inside `l`?
(embeds Go `strings.Contains`). -/
def containsSub (pat : List Char) : List Char → Bool
  | [] => pat.isEmpty
  | c :: r => pre pat (c :: r) || containsSub pat r

/-- `strings.Replace(s, pat, rep, 1)` for a non-empty pattern: replace the
first occurrence of `pat` by `rep`, leave `s` unchanged if none occurs. -/
def replaceOnce (pat rep : List Char) : List Char → List Char
  | [] => []
  | c :: r =>
    if pre pat (c :: r) then rep ++ (c :: r).drop pat.length
    else c :: replaceOnce pat rep r

/-- The URL rewrite inside `repositoryFor` (`getpatch.go` lines 166-170):
three ordered first-occurrence replacements, applied only when the URL
contains `"anonscm.debian.org"`. -/
def rewriteRepoURL (url : List Char) : List Char :=
  if containsSub "anonscm.debian.org".toList url then
    replaceOnce "debian.org".toList "debian.org/git".toList
      (replaceOnce "anonscm.debian.org".toList "git.debian.org".toList
        (replaceOnce "git".toList "git+ssh".toList url))
  else url

/-! ### The environment allow-list of the pipeline's command factory -/

/-- The fixed allow-list in `mergeAndBuild` (`getpatch.go` line 280). -/
def allowList : List String :=
  ["DEBFULLNAME", "DEBEMAIL", "SSH_AGENT_PID", "GPG_AGENT_INFO", "SSH_AUTH_SOCK"]

/-- The environment list of a command built by the rebound factory in
`mergeAndBuild`: for each allow-listed variable that is set in the ambient
environment, the entry `variable=value`; nothing else. -/
def buildCmdEnv (env : String → Option String) : List String :=
  allowList.filterMap fun v => (env v).map fun x => v ++ "=" ++ x

/-! ### The invocation sequence counter of `loggedexec.Run`

`cmdCount` is a Go `int` (64-bit); each `Run` reads it under the mutex and
increments it (`loggedexec.go` lines 106-111).  Increments wrap modulo
`2^64` at the bit-pattern level. -/

/-- Take the current counter value as this invocation's index, then
increment the shared counter (with 64-bit wraparound). -/
def nextIndex (c : Nat) : Nat × Nat := (c, (c + 1) % 2 ^ 64)

/-- The sequence indices handed out by `n` successive `Run` invocations
starting from counter value `c`. -/
def assignIndices : Nat → Nat → List Nat
  | _, 0 => []
  | c, n + 1 =>
    let p := nextIndex c
    p.1 :: assignIndices p.2 n

/-! ### The invocation-log lifecycle of `loggedexec.Run`

`Run` (`loggedexec.go` lines 123-173) writes the provisional invocation log,
opens the stdout/stderr log, starts the child process, waits for it, writes
the final invocation log to a fresh temporary file and renames it over the
provisional one.  The trace below records those operations in program
order. -/

/-- The filesystem/process operations `Run` performs, in order. -/
inductive LEv where
  | writeFile (p c : List Char)
  | openLog (p : List Char)
  | startChild
  | exitChild (ok : Bool)
  | createTemp (p : List Char)
  | writeTemp (p c : List Char)
  | closeTemp (p : List Char)
  | rename (src dst : List Char)
deriving Repr, DecidableEq

/-- The `invocationLog` string assembled at `loggedexec.go` lines 124-134
(timestamps already rendered; `%q` modelled as plain quoting). -/
def invocationLogBase (startedStr workDir : List Char) (args env : List (List Char)) : List Char :=
  "Execution started: ".toList ++ startedStr ++ '\n' ::
  ("Working directory: ".toList ++ quoteS workDir ++ '\n' ::
  ("Command (".toList ++ (Nat.repr args.length).toList ++ " elements):\n\t".toList ++
  joinSep "\n\t".toList (args.map quoteS) ++ '\n' ::
  ("Environment (".toList ++ (Nat.repr env.length).toList ++ " elements):\n\t".toList ++
  joinSep "\n\t".toList (env.map quoteS) ++ ['\n'])))

/-- The suffix `"(Still running…)"` appended to the provisional log. -/
def stillRunning : List Char := "(Still running…)".toList

/-- Content of the provisional invocation log (`loggedexec.go` line 135). -/
def provisionalContent (base : List Char) : List Char := base ++ stillRunning

/-- The finish line appended for the final log (`loggedexec.go`
lines 157-160), timestamps and duration already rendered. -/
def finishLine (finishedStr durStr : List Char) : List Char :=
  "Execution finished: ".toList ++ finishedStr ++ " (duration: ".toList ++ durStr ++ [')']

/-- Content of the final invocation log: the base, the finish line, and the
newline added by `fmt.Fprintln` (`loggedexec.go` line 167). -/
def finalContent (base fl : List Char) : List Char := base ++ fl ++ ['\n']

/-- `finished.Sub(started)` on the monotonic clock, in nanoseconds. -/
def durationNs (started finished : Nat) : Nat := finished - started

/-- The operation trace of one `Run` invocation on the path where no logging
operation fails (`loggedexec.go` lines 123-173), for either child outcome. -/
def runEvents (invPath logPath tmpPath base fl : List Char) (ok : Bool) : List LEv :=
  [LEv.writeFile invPath (provisionalContent base),
   LEv.openLog logPath,
   LEv.startChild,
   LEv.exitChild ok,
   LEv.createTemp tmpPath,
   LEv.writeTemp tmpPath (finalContent base fl),
   LEv.closeTemp tmpPath,
   LEv.rename tmpPath invPath]

/-- Whether an operation can alter the file stored at path `p`
(closing a handle never does; a rename alters its destination). -/
def touches (p : List Char) : LEv → Bool
  | LEv.writeFile q _ => q == p
  | LEv.openLog q => q == p
  | LEv.startChild => false
  | LEv.exitChild _ => false
  | LEv.createTemp q => q == p
  | LEv.writeTemp q _ => q == p
  | LEv.closeTemp _ => false
  | LEv.rename _ dst => dst == p

/-! ### The `mergeAndBuild` pipeline (`getpatch.go` lines 270-355)

Each stage either succeeds or fails; the oracle fixes which.  The trace
records the directory creation, file writes and stages run; the source
contains no removal operation, and every `return` after the temporary
directory exists returns it. -/

/-- Which pipeline stages succeed in one `mergeAndBuild` execution. -/
structure MBOracle where
  tempDirOk : Bool
  fetchOk : Bool
  writePatchOk : Bool
  repoOk : Bool
  scmIsGit : Bool
  checkoutOk : Bool
  fingerprintPreOk : Bool
  applyOk : Bool
  commitOk : Bool
  fingerprintPostOk : Bool
  releaseOk : Bool
  buildOk : Bool

/-- Externally visible actions of the pipeline. -/
inductive MBAction where
  | createTempDir (d : List Char)
  | writeFile (p : List Char)
  | runStage (name : List Char)
  | remove (p : List Char)
deriving Repr, DecidableEq

/-- Is the action a deletion? -/
def isRemove : MBAction → Bool
  | MBAction.remove _ => true
  | _ => false

/-- The `mergeAndBuild` pipeline: returns `((returned directory, errored),
action trace)`.  On the very first failure (`ioutil.TempDir`) the Go code
returns the zero value `""`; every later `return` returns `tempDir`, and no
path removes the directory or its contents. -/
def mergeAndBuild (td : List Char) (o : MBOracle) : (List Char × Bool) × List MBAction :=
  if !o.tempDirOk then (([], true), [])
  else
    let a1 := [MBAction.createTempDir td]
    if !o.fetchOk then ((td, true), a1 ++ [MBAction.runStage "fetchPatch".toList])
    else
      let a2 := a1 ++ [MBAction.runStage "fetchPatch".toList]
      if !o.writePatchOk then
        ((td, true), a2 ++ [MBAction.writeFile (joinPath td "latest.patch".toList)])
      else
        let a3 := a2 ++ [MBAction.writeFile (joinPath td "latest.patch".toList)]
        if !o.repoOk then ((td, true), a3 ++ [MBAction.runStage "repositoryFor".toList])
        else
          let a4 := a3 ++ [MBAction.runStage "repositoryFor".toList]
          if !o.scmIsGit then ((td, true), a4)
          else if !o.checkoutOk then ((td, true), a4 ++ [MBAction.runStage "gitCheckout".toList])
          else
            let a5 := a4 ++ [MBAction.runStage "gitCheckout".toList]
            if !o.fingerprintPreOk then
              ((td, true), a5 ++ [MBAction.runStage "sha256of".toList])
            else
              let a6 := a5 ++ [MBAction.runStage "sha256of".toList]
              if !o.applyOk then ((td, true), a6 ++ [MBAction.runStage "applyPatch".toList])
              else
                let a7 := a6 ++ [MBAction.runStage "applyPatch".toList]
                if !o.commitOk then ((td, true), a7 ++ [MBAction.runStage "gitCommit".toList])
                else
                  let a8 := a7 ++ [MBAction.runStage "gitCommit".toList]
                  if !o.fingerprintPostOk then
                    ((td, true), a8 ++ [MBAction.runStage "sha256of".toList])
                  else
                    let a9 := a8 ++ [MBAction.runStage "sha256of".toList]
                    if !o.releaseOk then
                      ((td, true), a9 ++ [MBAction.runStage "releaseChangelog".toList])
                    else
                      let a10 := a9 ++ [MBAction.runStage "releaseChangelog".toList]
                      if !o.buildOk then
                        ((td, true), a10 ++ [MBAction.runStage "buildPackage".toList])
                      else
                        ((td, false), a10 ++ [MBAction.runStage "buildPackage".toList])

/-! ## Helper lemmas -/

theorem pre_shape {a b c d : Char} {l : List Char} (h : pre [a, b, c, d] l = true) :
    ∃ r, l = a :: b :: c :: d :: r := by
  rcases l with _ | ⟨x1, _ | ⟨x2, _ | ⟨x3, _ | ⟨x4, r⟩⟩⟩⟩ <;> simp [pre] at h
  obtain ⟨h1, h2, h3, h4⟩ := h
  subst h1; subst h2; subst h3; subst h4
  exact ⟨r, rfl⟩

theorem pre_hdr_not_bul {l : List Char} (h : pre hdrPre l = true) : pre bulPre l = false := by
  obtain ⟨r, rfl⟩ := pre_shape h
  rfl

theorem pre_hdr_not_attr {l : List Char} (h : pre hdrPre l = true) : pre attrPre l = false := by
  obtain ⟨r, rfl⟩ := pre_shape h
  rfl

theorem pre_bul_not_attr {l : List Char} (h : pre bulPre l = true) : pre attrPre l = false := by
  obtain ⟨r, rfl⟩ := pre_shape h
  rfl

theorem pre_bul_not_empty {l : List Char} (h : pre bulPre l = true) : l.isEmpty = false := by
  obtain ⟨r, rfl⟩ := pre_shape h
  rfl

theorem pre_attr_not_empty {l : List Char} (h : pre attrPre l = true) : l.isEmpty = false := by
  obtain ⟨r, rfl⟩ := pre_shape h
  rfl

theorem pre_iff {p : List Char} : ∀ {l : List Char}, pre p l = true ↔ ∃ t, l = p ++ t := by
  induction p with
  | nil => intro l; simp [pre]
  | cons a p ih =>
    intro l
    rcases l with _ | ⟨b, bs⟩
    · simp [pre]
    · constructor
      · intro h
        simp only [pre, Bool.and_eq_true, beq_iff_eq] at h
        obtain ⟨h1, h2⟩ := h
        obtain ⟨t, rfl⟩ := ih.mp h2
        exact ⟨t, by simp [h1]⟩
      · rintro ⟨t, ht⟩
        rw [List.cons_append] at ht
        injection ht with h1 h2
        simp only [pre, Bool.and_eq_true, beq_iff_eq]
        exact ⟨h1.symm, ih.mpr ⟨t, h2⟩⟩

theorem containsSub_iff {pat : List Char} :
    ∀ {l : List Char}, containsSub pat l = true ↔ ∃ u v, l = u ++ pat ++ v := by
  intro l
  induction l with
  | nil =>
    simp [containsSub, List.isEmpty_iff]
  | cons c r ih =>
    simp [containsSub, ih, pre_iff]
    constructor
    · rintro (⟨t, ht⟩ | ⟨u, v, huv⟩)
      · exact ⟨[], t, by simp [ht]⟩
      · exact ⟨c :: u, v, by simp [huv]⟩
    · rintro ⟨u, v, huv⟩
      rcases u with _ | ⟨x, u⟩
      · exact Or.inl ⟨v, by simpa using huv⟩
      · simp at huv
        exact Or.inr ⟨u, v, huv.2⟩

theorem fcRun_nil (s : FCState) : fcRun s [] = (s, []) := rfl

theorem fcRun_cons (s : FCState) (l : List Char) (ls : List (List Char)) :
    fcRun s (l :: ls) =
      ((fcRun (fcStep s l).1 ls).1, (fcStep s l).2 ++ (fcRun (fcStep s l).1 ls).2) := rfl

theorem fcStep_copy {s : FCState} (h : s.copyOnly = true) (l : List Char) :
    fcStep s l = (s, [l]) := by
  simp [fcStep, h]

theorem fcStep_hdr {s : FCState} {l : List Char} (h : s.copyOnly = false)
    (hh : pre hdrPre l = true) : fcStep s l = ({ s with lastSection := l }, []) := by
  simp [fcStep, h, hh]

theorem fcStep_other {s : FCState} {l : List Char} (h : s.copyOnly = false)
    (hh : pre hdrPre l = false) :
    fcStep s l = (⟨s.lastSection, pre attrPre l, l.isEmpty⟩,
      (if pre bulPre l then [s.lastSection] else []) ++
      (if s.lastLineEmpty && l.isEmpty then [] else [l])) := by
  simp [fcStep, h, hh]

theorem fcRun_append (xs : List (List Char)) :
    ∀ (s : FCState) (ys : List (List Char)),
      fcRun s (xs ++ ys) =
        ((fcRun (fcRun s xs).1 ys).1, (fcRun s xs).2 ++ (fcRun (fcRun s xs).1 ys).2) := by
  induction xs with
  | nil => intro s ys; rfl
  | cons l xs ih =>
    intro s ys
    simp [fcRun_cons, ih, List.append_assoc]

theorem sim_aux : ∀ (ls : List (List Char)) (s t : FCState), SimInv s t ls →
    (fcRun t (fcRun s ls).2).2 = (fcRun s ls).2 := by
  intro ls
  induction ls with
  | nil => intro s t _; rfl
  | cons l ls ih =>
    intro s t hinv
    obtain ⟨hcp, hrest⟩ := hinv
    cases hs : s.copyOnly with
    | true =>
      have ht : t.copyOnly = true := hcp.symm.trans hs
      simp [fcRun_cons, fcRun_nil, fcStep_copy, hs, ht]
      exact ih s t ⟨hcp, fun hf => nomatch hs.symm.trans hf⟩
    | false =>
      have ht : t.copyOnly = false := hcp.symm.trans hs
      obtain ⟨hE, hSec, hNE⟩ := hrest hs
      cases hh : pre hdrPre l with
      | true =>
        simp [fcRun_cons, fcStep_hdr, hs, hh]
        exact ih _ t ⟨ht.symm, fun _ => ⟨hE, Or.inl hh, Or.inl hh⟩⟩
      | false =>
        cases hb : pre bulPre l with
        | true =>
          have ha : pre attrPre l = false := pre_bul_not_attr hb
          have hne : l.isEmpty = false := pre_bul_not_empty hb
          have hsec : pre hdrPre s.lastSection = true := by
            rcases hNE with h | h
            · exact h
            · exfalso
              simp [noEarly, hh, ha, hb] at h
          simp [fcRun_cons, fcStep_other, fcStep_hdr, hs, ht, hh, hb, ha, hne, hsec]
          exact ih _ _ ⟨rfl, fun _ => ⟨rfl, Or.inl hsec, Or.inl hsec⟩⟩
        | false =>
          cases hatt : pre attrPre l with
          | true =>
            have hne : l.isEmpty = false := pre_attr_not_empty hatt
            simp [fcRun_cons, fcStep_other, hs, ht, hh, hb, hatt, hne]
            exact ih _ _ ⟨rfl, fun hf => nomatch hf⟩
          | false =>
            have hNE' : pre hdrPre s.lastSection = true ∨ noEarly ls = true := by
              rcases hNE with h | h
              · exact Or.inl h
              · right
                simpa [noEarly, hh, hatt, hb] using h
            cases hse : s.lastLineEmpty && l.isEmpty with
            | true =>
              have h1 : s.lastLineEmpty = true := (Bool.and_eq_true _ _ |>.mp hse).1
              have h2 : l.isEmpty = true := (Bool.and_eq_true _ _ |>.mp hse).2
              have ht1 : t.lastLineEmpty = true := hE ▸ h1
              simp [fcRun_cons, fcStep_other, hs, hh, hb, hatt, hse]
              exact ih _ t ⟨ht.symm, fun _ => ⟨h2.trans ht1.symm, hSec, hNE'⟩⟩
            | false =>
              have hse' : (t.lastLineEmpty && l.isEmpty) = false := by
                rw [← hE]; exact hse
              have hse2 : ¬(t.lastLineEmpty = true ∧ l = []) := by
                rintro ⟨hta, rfl⟩
                rw [← hE] at hta
                simp [hta] at hse
              simp [fcRun_cons, fcStep_other, hs, ht, hh, hb, hatt, hse, hse', hse2]
              exact ih _ _ ⟨rfl, fun _ => ⟨rfl, hSec, hNE'⟩⟩

theorem fcStep_sec (s : FCState) (l : List Char) :
    (fcStep s l).1.lastSection = s.lastSection ∨ (fcStep s l).1.lastSection = l := by
  by_cases hc : s.copyOnly = true
  · simp [fcStep_copy hc]
  · rw [Bool.not_eq_true] at hc
    by_cases hh : pre hdrPre l = true
    · simp [fcStep_hdr hc hh]
    · rw [Bool.not_eq_true] at hh
      simp [fcStep_other hc hh]

theorem fcStep_out_mem {s : FCState} {l x : List Char} (hx : x ∈ (fcStep s l).2) :
    x = l ∨ x = s.lastSection := by
  by_cases hc : s.copyOnly = true
  · rw [fcStep_copy hc] at hx
    simp at hx
    exact Or.inl hx
  · rw [Bool.not_eq_true] at hc
    by_cases hh : pre hdrPre l = true
    · rw [fcStep_hdr hc hh] at hx
      simp at hx
    · rw [Bool.not_eq_true] at hh
      rw [fcStep_other hc hh] at hx
      simp at hx
      rcases hx with hx | hx
      · exact Or.inr hx.2
      · exact Or.inl hx.2

theorem fcRun_out_mem :
    ∀ (ls : List (List Char)) (s : FCState) (x : List Char),
      x ∈ (fcRun s ls).2 → x ∈ ls ∨ x = s.lastSection := by
  intro ls
  induction ls with
  | nil => intro s x hx; simp [fcRun_nil] at hx
  | cons l ls ih =>
    intro s x hx
    rw [fcRun_cons] at hx
    simp only [List.mem_append] at hx
    rcases hx with hx | hx
    · rcases fcStep_out_mem hx with h | h
      · exact Or.inl (by simp [h])
      · exact Or.inr h
    · rcases ih _ _ hx with h | h
      · exact Or.inl (by simp [h])
      · rcases fcStep_sec s l with h2 | h2
        · exact Or.inr (h.trans h2)
        · exact Or.inl (by simp [h.trans h2])

theorem noNL_dropLast : ∀ {l : List Char}, noNL l = true → noNL l.dropLast = true := by
  intro l
  induction l with
  | nil => intro h; exact h
  | cons c r ih =>
    intro h
    simp only [noNL, Bool.and_eq_true] at h
    rcases r with _ | ⟨d, r'⟩
    · rfl
    · rw [List.dropLast_cons₂]
      simp only [noNL, Bool.and_eq_true]
      exact ⟨h.1, ih h.2⟩

theorem noNL_dropCR {l : List Char} (h : noNL l = true) : noNL (dropCR l) = true := by
  rw [dropCR]
  split
  · exact noNL_dropLast h
  · exact h

theorem noNL_splitNL : ∀ (c : List Char) (p : List Char), p ∈ splitNL c → noNL p = true := by
  intro c
  induction c with
  | nil =>
    intro p hp
    simp [splitNL] at hp
    simp [hp, noNL]
  | cons ch r ih =>
    intro p hp
    by_cases hch : ch = '\n'
    · rw [splitNL, if_pos hch, List.mem_cons] at hp
      rcases hp with rfl | hp
      · rfl
      · exact ih _ hp
    · rw [splitNL, if_neg hch] at hp
      rcases hs : splitNL r with _ | ⟨q, qs⟩
      · rw [hs, List.mem_singleton] at hp
        subst hp
        simp [noNL, hch]
      · rw [hs, List.mem_cons] at hp
        rcases hp with rfl | hp
        · have hq : noNL q = true := ih q (by rw [hs]; exact List.mem_cons_self _ _)
          simp [noNL, hch, hq]
        · exact ih p (by rw [hs]; exact List.mem_cons_of_mem _ hp)

theorem splitNL_cat : ∀ (l r : List Char), noNL l = true →
    splitNL (l ++ '\n' :: r) = l :: splitNL r := by
  intro l
  induction l with
  | nil =>
    intro r _
    simp [splitNL]
  | cons c cl ih =>
    intro r h
    simp only [noNL, Bool.and_eq_true, Bool.not_eq_eq_eq_not, Bool.not_true] at h
    have hc : ¬(c = '\n') := by
      intro hc
      rw [hc] at h
      simp at h
    rw [List.cons_append, splitNL, if_neg hc, ih r h.2]

theorem splitNL_unlines : ∀ (ls : List (List Char)),
    (∀ l ∈ ls, noNL l = true) → splitNL (unlines ls) = ls ++ [[]] := by
  intro ls
  induction ls with
  | nil => intro _; rfl
  | cons l ls ih =>
    intro h
    have : unlines (l :: ls) = l ++ '\n' :: unlines ls := rfl
    rw [this, splitNL_cat _ _ (h l (List.mem_cons_self _ _)),
      ih (fun x hx => h x (List.mem_cons_of_mem _ hx))]
    rfl

theorem dropCR_noop {l : List Char} (h : endsCR l = false) : dropCR l = l := by
  simp [dropCR, h]

theorem map_dropCR_id : ∀ (ls : List (List Char)),
    (∀ l ∈ ls, endsCR l = false) → ls.map dropCR = ls := by
  intro ls
  induction ls with
  | nil => intro _; rfl
  | cons l ls ih =>
    intro h
    rw [List.map_cons, dropCR_noop (h l (List.mem_cons_self _ _)),
      ih (fun x hx => h x (List.mem_cons_of_mem _ hx))]

theorem scanLines_unlines (ls : List (List Char))
    (h1 : ∀ l ∈ ls, noNL l = true) (h2 : ∀ l ∈ ls, endsCR l = false) :
    scanLines (unlines ls) = ls := by
  rw [scanLines, splitNL_unlines ls h1]
  have hlast : (ls ++ [([] : List Char)]).getLast? = some [] := by
    simp [List.getLast?_concat]
  rw [if_pos hlast, List.dropLast_concat]
  exact map_dropCR_id ls h2

theorem scan_noNL (c : List Char) : ∀ l ∈ scanLines c, noNL l = true := by
  intro l hl
  rw [scanLines] at hl
  simp only [List.mem_map] at hl
  obtain ⟨p, hp, rfl⟩ := hl
  apply noNL_dropCR
  apply noNL_splitNL c
  split at hp
  · exact (List.dropLast_sublist _).subset hp
  · exact hp

theorem contains_append_nl (l r : List Char) :
    (l ++ r).contains '\n' = (l.contains '\n' || r.contains '\n') := by
  induction l with
  | nil => simp
  | cons c cl ih => simp [List.contains_cons, ih, Bool.or_assoc]

theorem takeWhile_nl_append (l : List Char) :
    ∀ r : List Char, l.contains '\n' = true →
      (l ++ r).takeWhile (fun ch => !(ch == '\n'))
        = l.takeWhile (fun ch => !(ch == '\n')) := by
  induction l with
  | nil => intro r h; simp [List.contains] at h
  | cons c cl ih =>
    intro r h
    by_cases hc : c = '\n'
    · subst hc
      simp [List.takeWhile_cons]
    · have hcl : cl.contains '\n' = true := by
        rw [List.contains_cons] at h
        rcases Bool.or_eq_true _ _ |>.mp h with h1 | h1
        · exact absurd (beq_iff_eq.mp h1).symm hc
        · exact h1
      simp [List.takeWhile_cons, hc, ih r hcl]

theorem cw_inv (c : CapturingWriter) (p : List Char)
    (h : c.newlineSeen = c.data.contains '\n') :
    (cwWrite c p).newlineSeen = (cwWrite c p).data.contains '\n' := by
  rw [cwWrite]
  split
  · exact h
  · next hns =>
    rw [Bool.not_eq_true] at hns
    rw [hns] at h
    rw [contains_append_nl, ← h, Bool.false_or]

theorem firstLine_foldl : ∀ (chunks : List (List Char)) (c : CapturingWriter),
    c.newlineSeen = c.data.contains '\n' →
    (List.foldl cwWrite c chunks).data.takeWhile (fun ch => !(ch == '\n'))
      = (c.data ++ chunks.flatten).takeWhile (fun ch => !(ch == '\n')) := by
  intro chunks
  induction chunks with
  | nil => intro c _; simp
  | cons p ps ih =>
    intro c h
    rw [List.foldl_cons]
    rw [ih (cwWrite c p) (cw_inv c p h)]
    cases hc : c.newlineSeen with
    | true =>
      have hdata : c.data.contains '\n' = true := by rw [← h, hc]
      have h1 : cwWrite c p = c := by rw [cwWrite, if_pos hc]
      rw [h1, takeWhile_nl_append _ _ hdata, takeWhile_nl_append _ _ hdata]
    | false =>
      have h1 : cwWrite c p = ⟨c.data ++ p, p.contains '\n'⟩ := by
        rw [cwWrite, if_neg (by simp [hc])]
      rw [h1]
      simp [List.append_assoc]

theorem firstLine_stream (chunks : List (List Char)) :
    firstLine (List.foldl cwWrite cwInit chunks)
      = chunks.flatten.takeWhile (fun ch => !(ch == '\n')) := by
  have h := firstLine_foldl chunks cwInit rfl
  simpa [firstLine, cwInit] using h

theorem foldl_baseName (l : List Char) :
    ∀ acc : List Char, '/' ∉ l →
      l.foldl (fun acc c => if c = '/' then [] else acc ++ [c]) acc = acc ++ l := by
  induction l with
  | nil => intro acc _; simp
  | cons c cl ih =>
    intro acc h
    have hc : ¬(c = '/') := fun hc => h (hc ▸ List.mem_cons_self _ _)
    rw [List.foldl_cons, if_neg hc, ih _ (fun hm => h (List.mem_cons_of_mem _ hm))]
    simp

theorem baseName_no_slash {l : List Char} (h : '/' ∉ l) : baseName l = l := by
  have := foldl_baseName l [] h
  simpa [baseName] using this

theorem assignIndices_eq_range' : ∀ (n c : Nat), c + n ≤ 2 ^ 64 →
    assignIndices c n = List.range' c n := by
  intro n
  induction n with
  | zero => intro c _; rfl
  | succ m ih =>
    intro c h
    show c :: assignIndices ((c + 1) % 2 ^ 64) m = List.range' c (m + 1)
    rcases Nat.lt_or_ge (c + 1) (2 ^ 64) with hlt | hge
    · rw [Nat.mod_eq_of_lt hlt, List.range'_succ, ih (c + 1) (by omega)]
    · have hm : m = 0 := by omega
      subst hm
      rfl

/-! ## Claim theorems -/

/-- C1 (counterexample): the final invocation log does *not* extend the
provisional file content: the provisional content ends with the
`"(Still running…)"` marker, which the final log drops before appending the
finish line, so the provisional content is not a prefix of the final
content. -/
theorem c1_final_not_extension_of_provisional :
    ¬ ∃ ext, finalContent "B".toList (finishLine "T1".toList "5ms".toList)
        = provisionalContent "B".toList ++ ext := by
  rintro ⟨ext, h⟩
  have ht : (finalContent "B".toList (finishLine "T1".toList "5ms".toList)).take
      (provisionalContent "B".toList).length = provisionalContent "B".toList := by
    rw [h]
    exact List.take_left _ _
  exact absurd ht (by decide)

/-- C1 (amended): in every `LoggedCmd.Run` execution, the provisional
invocation log is written to disk before the child process is started; after
the process exits (successfully or not) the final log is written to a fresh
temporary file and renamed over the provisional one as the last operation;
no operation between the provisional write and the final rename touches the
invocation log path; the final content strictly extends the provisional
content *with its trailing `"(Still running…)"` marker removed* by a finish
line; and the recorded duration is positive whenever the finish timestamp
strictly exceeds the start timestamp. -/
theorem c1_invocation_log_lifecycle
    (invPath logPath tmpPath base fl : List Char) (ok : Bool) (t0 t1 : Nat)
    (h1 : tmpPath ≠ invPath) (h2 : logPath ≠ invPath) (h3 : t0 < t1) :
    (runEvents invPath logPath tmpPath base fl ok)[0]? =
        some (LEv.writeFile invPath (provisionalContent base))
    ∧ (runEvents invPath logPath tmpPath base fl ok)[2]? = some LEv.startChild
    ∧ (runEvents invPath logPath tmpPath base fl ok)[3]? = some (LEv.exitChild ok)
    ∧ (runEvents invPath logPath tmpPath base fl ok)[5]? =
        some (LEv.writeTemp tmpPath (finalContent base fl))
    ∧ (runEvents invPath logPath tmpPath base fl ok).getLast? =
        some (LEv.rename tmpPath invPath)
    ∧ (∀ e ∈ ((runEvents invPath logPath tmpPath base fl ok).drop 1).dropLast,
        touches invPath e = false)
    ∧ provisionalContent base = base ++ stillRunning
    ∧ finalContent base fl
        = (provisionalContent base).take
            ((provisionalContent base).length - stillRunning.length) ++ fl ++ ['\n']
    ∧ 0 < durationNs t0 t1 := by
  refine ⟨rfl, rfl, rfl, rfl, rfl, ?_, rfl, ?_, ?_⟩
  · intro e he
    simp [runEvents] at he
    rcases he with rfl | rfl | rfl | rfl | rfl | rfl
    · simpa [touches, beq_eq_false_iff_ne] using h2
    · rfl
    · rfl
    · simpa [touches, beq_eq_false_iff_ne] using h1
    · simpa [touches, beq_eq_false_iff_ne] using h1
    · rfl
  · simp [provisionalContent, finalContent, List.take_left]
  · simp only [durationNs]
    omega

/-- C1 (witness): the lifecycle theorem applied to a concrete invocation. -/
theorem c1_invocation_log_lifecycle_witness :
    (runEvents "/tmp/000-ls.invocation.log".toList "/tmp/000-ls.stdoutstderr.log".toList
        "/tmp/.invocation-log-1".toList "B".toList
        (finishLine "T1".toList "5ms".toList) false)[0]? =
      some (LEv.writeFile "/tmp/000-ls.invocation.log".toList
        (provisionalContent "B".toList)) :=
  (c1_invocation_log_lifecycle "/tmp/000-ls.invocation.log".toList
    "/tmp/000-ls.stdoutstderr.log".toList "/tmp/.invocation-log-1".toList
    "B".toList (finishLine "T1".toList "5ms".toList) false 0 5
    (by decide) (by decide) (by decide)).1

/-- C2 (code bug): contrary to the comment "Defer printing section headers
until the first entry of the section" and to the spec, `filterChangelog`
prints the pending section header before *every* bullet of a section, not
just once before the first one: given a header followed by two bullets, the
header appears twice in the output. -/
theorem c2_section_header_duplicated :
    filterLines
        ["wit (1.0-1) unstable; urgency=medium".toList, "".toList,
         "  [ A ]".toList, "  * one".toList, "  * two".toList, "".toList,
         " -- M <m@d>  Mon, 01 Jan 2024".toList]
      = ["wit (1.0-1) unstable; urgency=medium".toList, "".toList,
         "  [ A ]".toList, "  * one".toList, "  [ A ]".toList, "  * two".toList,
         "".toList, " -- M <m@d>  Mon, 01 Jan 2024".toList]
    ∧ (filterLines
        ["wit (1.0-1) unstable; urgency=medium".toList, "".toList,
         "  [ A ]".toList, "  * one".toList, "  * two".toList, "".toList,
         " -- M <m@d>  Mon, 01 Jan 2024".toList]).count "  [ A ]".toList = 2 := by
  exact ⟨by decide, by decide⟩

/-- C3 (counterexample): the first line surfaced in the error message is the
text up to but *excluding* the first newline byte, not including it as the
claim states: for the merged stream `"ab\ncd"` the message quotes `"ab"` and
nowhere contains the quoted `"ab\n"`. -/
theorem c3_first_line_excludes_newline :
    firstLine (cwWrite cwInit ['a', 'b', '\n', 'c', 'd'])
        ≠ specFirstLine ['a', 'b', '\n', 'c', 'd']
    ∧ ¬ ∃ u v, errorMessage "ls /tmp/nope".toList "exit status 2".toList
          "/tmp/000-ls.invocation.log".toList "/tmp/000-ls.stdoutstderr.log".toList
          (firstLine (cwWrite cwInit ['a', 'b', '\n', 'c', 'd']))
        = u ++ quoteS (specFirstLine ['a', 'b', '\n', 'c', 'd']) ++ v := by
  constructor
  · decide
  · rintro ⟨u, v, h⟩
    exact absurd (containsSub_iff.mpr ⟨u, v, h⟩) (by decide)

/-- C3 (amended): for every failing command, the error message contains the
quoted command line, the underlying process error, the quoted paths of both
log files and the quoted first line of the captured merged stdout/stderr
stream, where the first line is the text up to but excluding the first
newline byte of the merged stream. -/
theorem c3_error_message_content (args : List (List Char))
    (runErrStr invPath logPath : List Char) (chunks : List (List Char)) :
    firstLine (List.foldl cwWrite cwInit chunks)
        = chunks.flatten.takeWhile (fun ch => !(ch == '\n'))
    ∧ (∃ u v, errorMessage (joinSep [' '] args) runErrStr invPath logPath
          (firstLine (List.foldl cwWrite cwInit chunks))
        = u ++ quoteS (joinSep [' '] args) ++ v)
    ∧ (∃ u v, errorMessage (joinSep [' '] args) runErrStr invPath logPath
          (firstLine (List.foldl cwWrite cwInit chunks))
        = u ++ runErrStr ++ v)
    ∧ (∃ u v, errorMessage (joinSep [' '] args) runErrStr invPath logPath
          (firstLine (List.foldl cwWrite cwInit chunks))
        = u ++ quoteS invPath ++ v)
    ∧ (∃ u v, errorMessage (joinSep [' '] args) runErrStr invPath logPath
          (firstLine (List.foldl cwWrite cwInit chunks))
        = u ++ quoteS logPath ++ v)
    ∧ (∃ u v, errorMessage (joinSep [' '] args) runErrStr invPath logPath
          (firstLine (List.foldl cwWrite cwInit chunks))
        = u ++ quoteS (firstLine (List.foldl cwWrite cwInit chunks)) ++ v) := by
  refine ⟨firstLine_stream chunks, ?_, ?_, ?_, ?_, ?_⟩
  · exact ⟨"Running ".toList,
      ": ".toList ++ runErrStr ++ "\n".toList ++ "See ".toList ++ quoteS invPath ++
        " for invocation details.\n".toList ++ "See ".toList ++ quoteS logPath ++
        " for full stdout/stderr.\n".toList ++ "First stdout/stderr line: ".toList ++
        quoteS (firstLine (List.foldl cwWrite cwInit chunks)) ++ "\n".toList,
      by simp [errorMessage, List.append_assoc]⟩
  · exact ⟨"Running ".toList ++ quoteS (joinSep [' '] args) ++ ": ".toList,
      "\n".toList ++ "See ".toList ++ quoteS invPath ++
        " for invocation details.\n".toList ++ "See ".toList ++ quoteS logPath ++
        " for full stdout/stderr.\n".toList ++ "First stdout/stderr line: ".toList ++
        quoteS (firstLine (List.foldl cwWrite cwInit chunks)) ++ "\n".toList,
      by simp [errorMessage, List.append_assoc]⟩
  · exact ⟨"Running ".toList ++ quoteS (joinSep [' '] args) ++ ": ".toList ++
        runErrStr ++ "\n".toList ++ "See ".toList,
      " for invocation details.\n".toList ++ "See ".toList ++ quoteS logPath ++
        " for full stdout/stderr.\n".toList ++ "First stdout/stderr line: ".toList ++
        quoteS (firstLine (List.foldl cwWrite cwInit chunks)) ++ "\n".toList,
      by simp [errorMessage, List.append_assoc]⟩
  · exact ⟨"Running ".toList ++ quoteS (joinSep [' '] args) ++ ": ".toList ++
        runErrStr ++ "\n".toList ++ "See ".toList ++ quoteS invPath ++
        " for invocation details.\n".toList ++ "See ".toList,
      " for full stdout/stderr.\n".toList ++ "First stdout/stderr line: ".toList ++
        quoteS (firstLine (List.foldl cwWrite cwInit chunks)) ++ "\n".toList,
      by simp [errorMessage, List.append_assoc]⟩
  · exact ⟨"Running ".toList ++ quoteS (joinSep [' '] args) ++ ": ".toList ++
        runErrStr ++ "\n".toList ++ "See ".toList ++ quoteS invPath ++
        " for invocation details.\n".toList ++ "See ".toList ++ quoteS logPath ++
        " for full stdout/stderr.\n".toList ++ "First stdout/stderr line: ".toList,
      "\n".toList,
      by simp [errorMessage, List.append_assoc]⟩

/-- C4: starting from a fresh counter, the indices assigned to `n`
successive invocations (for every feasible `n`, i.e. as long as the 64-bit
counter does not wrap) are exactly `0, 1, ..., n-1` in call order, and they
are strictly increasing (hence collision-free). -/
theorem c4_sequence_indices (n : Nat) (h : n ≤ 2 ^ 64) :
    assignIndices 0 n = List.range n ∧ (assignIndices 0 n).Pairwise (· < ·) := by
  have he : assignIndices 0 n = List.range n := by
    rw [List.range_eq_range']
    exact assignIndices_eq_range' n 0 (by omega)
  refine ⟨he, ?_⟩
  rw [he]
  exact List.pairwise_lt_range n

/-- C4 (witness): three invocations from a fresh counter get `[0, 1, 2]`. -/
theorem c4_sequence_indices_witness : assignIndices 0 3 = List.range 3 :=
  (c4_sequence_indices 3 (by norm_num)).1

/-- C5: the URL rewrite of `repositoryFor` turns
`git://anonscm.debian.org/pkg.git` into
`git+ssh://git.debian.org/git/pkg.git` via the three ordered replacements,
and leaves every URL not containing `anonscm.debian.org` unchanged. -/
theorem c5_url_rewrite :
    rewriteRepoURL "git://anonscm.debian.org/pkg.git".toList
        = "git+ssh://git.debian.org/git/pkg.git".toList
    ∧ ∀ url : List Char,
        containsSub "anonscm.debian.org".toList url = false →
          rewriteRepoURL url = url := by
  refine ⟨by decide, ?_⟩
  intro url h
  rw [rewriteRepoURL, if_neg (by rw [h]; exact Bool.false_ne_true)]

/-- C5 (witness): a URL without the anonymous host is left unchanged. -/
theorem c5_url_rewrite_witness :
    rewriteRepoURL "https://salsa.debian.org/go-team/pkg.git".toList
      = "https://salsa.debian.org/go-team/pkg.git".toList :=
  c5_url_rewrite.2 _ (by decide)

/-- C6: the command factory's environment contains exactly the allow-listed
variables that are set in the ambient environment (as `name=value` entries);
consequently two ambient environments agreeing on the five allow-listed
variables produce identical command environment lists, whatever the other
variables are. -/
theorem c6_env_allowlist :
    (∀ env env' : String → Option String,
        (∀ v ∈ allowList, env v = env' v) → buildCmdEnv env = buildCmdEnv env')
    ∧ ∀ (env : String → Option String) (s : String),
        s ∈ buildCmdEnv env ↔ ∃ v ∈ allowList, ∃ x, env v = some x ∧ s = v ++ "=" ++ x := by
  constructor
  · intro env env' h
    exact List.filterMap_congr fun v hv => by rw [h v hv]
  · intro env s
    simp only [buildCmdEnv, List.mem_filterMap]
    constructor
    · rintro ⟨v, hv, hs⟩
      rw [Option.map_eq_some'] at hs
      obtain ⟨x, hx, hxs⟩ := hs
      exact ⟨v, hv, x, hx, hxs.symm⟩
    · rintro ⟨v, hv, x, hx, rfl⟩
      exact ⟨v, hv, by rw [hx]; rfl⟩

/-- C6 (witness): adding an unrelated ambient variable (`HOME`) does not
change the constructed command environment. -/
theorem c6_env_allowlist_witness :
    buildCmdEnv (fun v => if v = "DEBEMAIL" then some "a@b" else none)
      = buildCmdEnv (fun v => if v = "DEBEMAIL" then some "a@b"
          else if v = "HOME" then some "/root" else none) :=
  c6_env_allowlist.1 _ _ (by
    intro v hv
    simp only [allowList, List.mem_cons, List.mem_singleton] at hv
    rcases hv with rfl | rfl | rfl | rfl | rfl | h
    · decide
    · decide
    · decide
    · decide
    · decide
    · simp at h)

/-- C7 (counterexample): `filterChangelog` is not idempotent on all inputs:
for the file `"  * a\n"` (a bullet with no contributor header above it) the
first pass emits the empty `lastSection` before the bullet and the second
pass emits it again, so the second application changes the file again. -/
theorem c7_not_idempotent :
    filterChangelog (filterChangelog "  * a\n".toList)
      ≠ filterChangelog "  * a\n".toList := by
  decide

/-- C7 (amended): `filterChangelog` is idempotent on every input in which no
bullet line occurs before the first contributor header or attribution line
(so the pending section header is never the empty initial one) and no
scanned line ends in a carriage return (which the scanner would strip on the
second pass). -/
theorem c7_idempotent_with_headers (content : List Char)
    (h1 : noEarly (scanLines content) = true)
    (h2 : ∀ l ∈ scanLines content, endsCR l = false) :
    filterChangelog (filterChangelog content) = filterChangelog content := by
  have key : filterLines (filterLines (scanLines content))
      = filterLines (scanLines content) :=
    sim_aux (scanLines content) FCState.init FCState.init
      ⟨rfl, fun _ => ⟨rfl, Or.inr rfl, Or.inr h1⟩⟩
  have hmem : ∀ l ∈ filterLines (scanLines content),
      noNL l = true ∧ endsCR l = false := by
    intro l hl
    rcases fcRun_out_mem (scanLines content) FCState.init l hl with h | h
    · exact ⟨scan_noNL content l h, h2 l h⟩
    · subst h
      exact ⟨rfl, rfl⟩
  have hscan : scanLines (unlines (filterLines (scanLines content)))
      = filterLines (scanLines content) :=
    scanLines_unlines _ (fun l hl => (hmem l hl).1) (fun l hl => (hmem l hl).2)
  show unlines (filterLines (scanLines (unlines (filterLines (scanLines content)))))
      = unlines (filterLines (scanLines content))
  rw [hscan, key]

/-- C7 (witness): idempotence on a well-formed changelog fragment. -/
theorem c7_idempotent_with_headers_witness :
    filterChangelog (filterChangelog "  [ A ]\n  * x\n -- m\n".toList)
      = filterChangelog "  [ A ]\n  * x\n -- m\n".toList :=
  c7_idempotent_with_headers "  [ A ]\n  * x\n -- m\n".toList (by decide) (by decide)

/-- C8: once the temporary directory has been created, every execution path
of `mergeAndBuild` — success and each stage failure — returns the temporary
directory, and the action trace contains no removal. -/
theorem c8_tempdir_retained (td : List Char) (o : MBOracle)
    (h : o.tempDirOk = true) :
    (mergeAndBuild td o).1.1 = td
    ∧ ((mergeAndBuild td o).2.all fun a => !isRemove a) = true := by
  obtain ⟨t, f1, f2, f3, f4, f5, f6, f7, f8, f9, f10, f11⟩ := o
  have ht : t = true := h
  subst ht
  cases f1 with
  | false => exact ⟨rfl, rfl⟩
  | true =>
  cases f2 with
  | false => exact ⟨rfl, rfl⟩
  | true =>
  cases f3 with
  | false => exact ⟨rfl, rfl⟩
  | true =>
  cases f4 with
  | false => exact ⟨rfl, rfl⟩
  | true =>
  cases f5 with
  | false => exact ⟨rfl, rfl⟩
  | true =>
  cases f6 with
  | false => exact ⟨rfl, rfl⟩
  | true =>
  cases f7 with
  | false => exact ⟨rfl, rfl⟩
  | true =>
  cases f8 with
  | false => exact ⟨rfl, rfl⟩
  | true =>
  cases f9 with
  | false => exact ⟨rfl, rfl⟩
  | true =>
  cases f10 with
  | false => exact ⟨rfl, rfl⟩
  | true =>
  cases f11 with
  | false => exact ⟨rfl, rfl⟩
  | true => exact ⟨rfl, rfl⟩

/-- C8 (witness): a failure in the fetch stage still returns the temporary
directory. -/
theorem c8_tempdir_retained_witness :
    (mergeAndBuild "/tmp/mergebot-1".toList
        ⟨true, false, true, true, true, true, true, true, true, true, true, true⟩).1.1
      = "/tmp/mergebot-1".toList :=
  (c8_tempdir_retained "/tmp/mergebot-1".toList
    ⟨true, false, true, true, true, true, true, true, true, true, true, true⟩ rfl).1

/-- C9 (counterexample): the program component of the log file names is
`Args[0]` verbatim, not its base name: for `Args[0] = "bin/ls"` the code
produces `/tmp/000-bin/ls.invocation.log`, not the
`/tmp/000-ls.invocation.log` that the base-name rule would give. -/
theorem c9_not_base_name :
    invocationLogPathFor "/tmp".toList 0 "bin/ls".toList
      ≠ specInvocationLogPathFor "/tmp".toList 0 "bin/ls".toList := by
  decide

/-- C9 (amended): the two log file names are determined exactly by the log
directory, the zero-padded sequence index per the `"%03d-"` format, the
program name `Args[0]` exactly as passed, and the log-kind suffix; the
program component equals the program's base name precisely when `Args[0]`
contains no path separator. -/
theorem c9_log_naming (logDir : List Char) (idx : Nat) (arg0 : List Char) :
    invocationLogPathFor logDir idx arg0
        = logDir ++ '/' :: (pad3 idx ++ '-' :: (arg0 ++ ".invocation.log".toList))
    ∧ stdouterrLogPathFor logDir idx arg0
        = logDir ++ '/' :: (pad3 idx ++ '-' :: (arg0 ++ ".stdoutstderr.log".toList))
    ∧ ('/' ∉ arg0 →
        invocationLogPathFor logDir idx arg0 = specInvocationLogPathFor logDir idx arg0
        ∧ stdouterrLogPathFor logDir idx arg0
            = specStdouterrLogPathFor logDir idx arg0) := by
  refine ⟨?_, ?_, ?_⟩
  · simp [invocationLogPathFor, logPrefixFor, joinPath, List.append_assoc]
  · simp [stdouterrLogPathFor, logPrefixFor, joinPath, List.append_assoc]
  · intro h
    constructor
    · simp [invocationLogPathFor, specInvocationLogPathFor, logPrefixFor, joinPath,
        baseName_no_slash h]
    · simp [stdouterrLogPathFor, specStdouterrLogPathFor, logPrefixFor, joinPath,
        baseName_no_slash h]

/-- C9 (witness): for a plain program name the code's path and the base-name
path coincide. -/
theorem c9_log_naming_witness :
    invocationLogPathFor "/tmp".toList 7 "ls".toList
      = specInvocationLogPathFor "/tmp".toList 7 "ls".toList :=
  ((c9_log_naming "/tmp".toList 7 "ls".toList).2.2 (by decide)).1

/-- C10: `filterChangelog` is atomic with respect to its target file: the
rename happens only after scanning and closing succeeded, and whenever the
call reports an error the target file's contents are untouched; on success
the target holds the filtered content. -/
theorem c10_filter_atomic (fs : FS) (path tmp : List Char) (o : FcOutcome)
    (hne : tmp ≠ path) :
    ((filterChangelogRun fs path tmp o).2 = true →
        (filterChangelogRun fs path tmp o).1 path = fs path)
    ∧ ((filterChangelogRun fs path tmp o).2 = false →
        o.scanOk = true ∧ o.closeOk = true ∧
        (filterChangelogRun fs path tmp o).1 path = (fs path).map filterChangelog) := by
  have hpt : ¬(path = tmp) := fun hx => hne hx.symm
  obtain ⟨b1, b2, b3, b4, b5⟩ := o
  cases b1 <;> cases b2 <;> cases b3 <;> cases b4 <;> cases b5 <;>
    rcases hfp : fs path with _ | c <;>
      simp [filterChangelogRun, fsUpd, hpt, hfp]

/-- C10 (witness): with the target file missing, the call errors out and the
target is still missing afterwards. -/
theorem c10_filter_atomic_witness :
    (filterChangelogRun (fun _ => none) "/d/changelog".toList "/d/.mergebot-1".toList
        ⟨true, true, true, true, true⟩).1 "/d/changelog".toList = none :=
  (c10_filter_atomic (fun _ => none) "/d/changelog".toList "/d/.mergebot-1".toList
    ⟨true, true, true, true, true⟩ (by decide)).1 (by decide)

end Mergebot
